import Mathlib

/-!
Verification of the password generator in `app.py` of the
`configuration-as-code-CICD` repository.

The only non-glue routine of the repository is `generate_password(length)`:
it draws one character from each of four character classes, appends
`length - 4` filler characters drawn from the union of the classes, and
shuffles the resulting list with `secrets.SystemRandom().shuffle` (a
Fisher-Yates shuffle) before joining it into a string.

The random source (`secrets`) is embedded as an explicit stream
`s : Nat → Nat` of draws, consumed in program order: `secrets.choice(seq)`
at the n-th draw returns `seq[s n % len(seq)]` (a draw below the length),
and each Fisher-Yates step consumes one draw for its swap index.  The
requested length is an `Int`, as Python's `int` is unbounded and may be
negative; `range(length - 4)` is empty for `length ≤ 4`, which the
embedding renders as `(length - 4).toNat`.
-/

namespace App

/-- `string.ascii_lowercase` bound to `lowercase` in `generate_password`. -/
def lowercase : List Char := "abcdefghijklmnopqrstuvwxyz".toList

/-- `string.ascii_uppercase` bound to `uppercase` in `generate_password`. -/
def uppercase : List Char := "ABCDEFGHIJKLMNOPQRSTUVWXYZ".toList

/-- `string.digits` bound to `digits` in `generate_password`. -/
def digits : List Char := "0123456789".toList

/-- The literal `"!@#$%^&*"` bound to `special_chars`. -/
def special_chars : List Char := "!@#$%^&*".toList

/-- `all_chars = lowercase + uppercase + digits + special_chars`. -/
def all_chars : List Char := lowercase ++ uppercase ++ digits ++ special_chars

/-- `secrets.choice(cs)` where the current draw of the random stream is `r`:
the element of `cs` indexed by a draw below `cs.length`. -/
def choice (cs : List Char) (r : Nat) : Char := cs.getD (r % cs.length) ' '

/-- One Fisher-Yates exchange `x[i], x[j] = x[j], x[i]`. -/
def swapL (l : List Char) (i j : Nat) : List Char :=
  (l.set i (l.getD j ' ')).set j (l.getD i ' ')

/-- The loop of `random.shuffle`: for `i` from `len - 1` down to `1`,
exchange `x[i]` with `x[j]` where `j` is a draw below `i + 1`.  `idx` is
the position in the random stream, `i` counts the remaining iterations. -/
def fyAux (s : Nat → Nat) : Nat → Nat → List Char → List Char
  | _, 0, l => l
  | idx, i + 1, l => fyAux s (idx + 1) i (swapL l (i + 1) (s idx % (i + 2)))

/-- `secrets.SystemRandom().shuffle(l)`, consuming the stream from `idx`. -/
def shuffle (s : Nat → Nat) (idx : Nat) (l : List Char) : List Char :=
  fyAux s idx (l.length - 1) l

/-- The four mandatory characters, one `secrets.choice` per class, in the
order the source lists them. -/
def mandatoryChars (s : Nat → Nat) : List Char :=
  [choice lowercase (s 0), choice uppercase (s 1),
   choice digits (s 2), choice special_chars (s 3)]

/-- The filler loop `for _ in range(length - 4): password.append(secrets.choice(all_chars))`.
The k-th iteration consumes stream draw `4 + k`. -/
def fillChars (length : Int) (s : Nat → Nat) : List Char :=
  (List.range (length - 4).toNat).map (fun k => choice all_chars (s (4 + k)))

/-- `generate_password(length)` from `app.py`: the four mandatory
characters, the filler characters, a Fisher-Yates shuffle of the combined
list, joined into a string. -/
def generate_password (length : Int) (s : Nat → Nat) : String :=
  String.mk (shuffle s (4 + (length - 4).toNat) (mandatoryChars s ++ fillChars length s))

/-! ### Basic lemmas about the embedding -/

theorem length_swapL (l : List Char) (i j : Nat) : (swapL l i j).length = l.length := by
  simp [swapL]

theorem cons_set_perm (t : List Char) :
    ∀ (k : Nat) (hk : k < t.length) (a : Char), (t.get ⟨k, hk⟩ :: t.set k a).Perm (a :: t) := by
  induction t with
  | nil => intro k hk; exact absurd hk (by simp)
  | cons b t ih =>
    intro k hk a
    match k with
    | 0 => simpa using List.Perm.swap a b t
    | k + 1 =>
      have hk' : k < t.length := by simpa using hk
      show (t.get ⟨k, hk'⟩ :: b :: t.set k a).Perm (a :: b :: t)
      exact (List.Perm.swap b _ _).trans (((ih k hk' a).cons b).trans (List.Perm.swap a b t))

theorem swapL_perm (l : List Char) (i j : Nat) (hi : i < l.length) (hj : j < l.length) :
    (swapL l i j).Perm l := by
  induction l generalizing i j with
  | nil => exact absurd hi (by simp)
  | cons b t ih =>
    match i, j with
    | 0, 0 => simp [swapL, List.getD_cons_zero]
    | 0, j + 1 =>
      have hj' : j < t.length := by simpa using hj
      have hg : (b :: t).getD (j + 1) ' ' = t.get ⟨j, hj'⟩ := by
        rw [List.getD_cons_succ]; exact List.getD_eq_getElem t ' ' hj'
      simp only [swapL, List.getD_cons_zero, List.set_cons_zero, List.set_cons_succ, hg]
      exact cons_set_perm t j hj' b
    | i + 1, 0 =>
      have hi' : i < t.length := by simpa using hi
      have hg : (b :: t).getD (i + 1) ' ' = t.get ⟨i, hi'⟩ := by
        rw [List.getD_cons_succ]; exact List.getD_eq_getElem t ' ' hi'
      simp only [swapL, List.getD_cons_zero, List.set_cons_zero, List.set_cons_succ, hg]
      exact cons_set_perm t i hi' b
    | i + 1, j + 1 =>
      have hi' : i < t.length := by simpa using hi
      have hj' : j < t.length := by simpa using hj
      simp only [swapL, List.set_cons_succ, List.getD_cons_succ]
      exact (ih i j hi' hj').cons b

theorem fyAux_perm (s : Nat → Nat) :
    ∀ (i idx : Nat) (l : List Char), i < l.length → (fyAux s idx i l).Perm l := by
  intro i
  induction i with
  | zero => intro idx l _; exact List.Perm.refl l
  | succ i ih =>
    intro idx l hi
    have hj : s idx % (i + 2) < l.length :=
      lt_of_lt_of_le (Nat.mod_lt _ (by omega)) (by omega)
    have hswap := swapL_perm l (i + 1) (s idx % (i + 2)) hi hj
    have hlen : i < (swapL l (i + 1) (s idx % (i + 2))).length := by
      rw [length_swapL]; omega
    exact (ih (idx + 1) _ hlen).trans hswap

theorem shuffle_perm (s : Nat → Nat) (idx : Nat) (l : List Char) (h : 0 < l.length) :
    (shuffle s idx l).Perm l :=
  fyAux_perm s (l.length - 1) idx l (by omega)

theorem length_fillChars (length : Int) (s : Nat → Nat) :
    (fillChars length s).length = (length - 4).toNat := by
  simp [fillChars]

theorem choice_mem (cs : List Char) (r : Nat) (h : cs ≠ []) : choice cs r ∈ cs := by
  have hlen : 0 < cs.length := List.length_pos.mpr h
  have hlt : r % cs.length < cs.length := Nat.mod_lt _ hlen
  rw [choice, List.getD_eq_getElem cs ' ' hlt]
  exact List.getElem_mem hlt

theorem generate_password_data (length : Int) (s : Nat → Nat) :
    (generate_password length s).data =
      shuffle s (4 + (length - 4).toNat) (mandatoryChars s ++ fillChars length s) := rfl

theorem generate_password_perm (length : Int) (s : Nat → Nat) :
    (generate_password length s).data.Perm (mandatoryChars s ++ fillChars length s) := by
  rw [generate_password_data]
  exact shuffle_perm s _ _ (by simp [mandatoryChars])

theorem length_combined (length : Int) (s : Nat → Nat) :
    (mandatoryChars s ++ fillChars length s).length = 4 + (length - 4).toNat := by
  simp only [List.length_append, mandatoryChars, length_fillChars, List.length_cons,
    List.length_nil]
  try omega

theorem generate_password_length (length : Int) (s : Nat → Nat) :
    (generate_password length s).length = 4 + (length - 4).toNat := by
  show (generate_password length s).data.length = 4 + (length - 4).toNat
  rw [(generate_password_perm length s).length_eq, length_combined]

theorem mem_all_chars_of (c : Char)
    (h : c ∈ lowercase ∨ c ∈ uppercase ∨ c ∈ digits ∨ c ∈ special_chars) : c ∈ all_chars := by
  simp only [all_chars, List.mem_append]
  tauto

theorem mem_mandatoryChars (s : Nat → Nat) (c : Char) (hc : c ∈ mandatoryChars s) :
    c ∈ all_chars := by
  simp only [mandatoryChars, List.mem_cons, List.not_mem_nil, or_false] at hc
  rcases hc with rfl | rfl | rfl | rfl <;> apply mem_all_chars_of
  · exact Or.inl (choice_mem _ _ (by decide))
  · exact Or.inr (Or.inl (choice_mem _ _ (by decide)))
  · exact Or.inr (Or.inr (Or.inl (choice_mem _ _ (by decide))))
  · exact Or.inr (Or.inr (Or.inr (choice_mem _ _ (by decide))))

theorem mem_fillChars (length : Int) (s : Nat → Nat) (c : Char)
    (hc : c ∈ fillChars length s) : c ∈ all_chars := by
  simp only [fillChars, List.mem_map, List.mem_range] at hc
  obtain ⟨k, -, rfl⟩ := hc
  exact choice_mem _ _ (by decide)

/-- If the Fisher-Yates step at stream position `idx + k` draws `i - k`
(mod the current modulus) for every remaining step `k`, each exchange is
`x[i], x[i] = x[i], x[i]` and the shuffle is the identity. -/
theorem set_getD_self (l : List Char) (i : Nat) (h : i < l.length) :
    l.set i (l.getD i ' ') = l := by
  induction l generalizing i with
  | nil => simp at h
  | cons b t ih =>
    match i with
    | 0 => simp
    | i + 1 => simp only [List.getD_cons_succ, List.set_cons_succ]; rw [ih i (by simpa using h)]

theorem swapL_self (l : List Char) (i : Nat) (h : i < l.length) : swapL l i i = l := by
  rw [swapL, List.set_set, set_getD_self l i h]

theorem fyAux_noop (s : Nat → Nat) :
    ∀ (i idx : Nat) (l : List Char), i < l.length →
      (∀ k, k < i → s (idx + k) % (i + 1 - k) = i - k) → fyAux s idx i l = l := by
  intro i
  induction i with
  | zero => intro idx l _ _; rfl
  | succ i ih =>
    intro idx l hi hk
    have h0 : s idx % (i + 2) = i + 1 := by
      have := hk 0 (by omega)
      simpa using this
    rw [fyAux, h0, swapL_self l (i + 1) hi]
    refine ih (idx + 1) l (by omega) ?_
    intro k hk'
    have := hk (k + 1) (by omega)
    have e1 : idx + (k + 1) = idx + 1 + k := by omega
    have e2 : i + 1 + 1 - (k + 1) = i + 1 - k := by omega
    have e3 : i + 1 - (k + 1) = i - k := by omega
    rw [e1, e2, e3] at this
    exact this

theorem swapL_one_zero (a b : Char) (rest : List Char) :
    swapL (a :: b :: rest) 1 0 = b :: a :: rest := by
  simp [swapL, List.getD_cons_zero, List.getD_cons_succ]

/-- If every Fisher-Yates step but the last is the identity exchange and
the last step (modulus 2) draws 0, the shuffle exchanges positions 1 and 0. -/
theorem fyAux_last_swap (s : Nat → Nat) :
    ∀ (i idx : Nat) (l : List Char), i < l.length → 1 ≤ i →
      (∀ k, k < i - 1 → s (idx + k) % (i + 1 - k) = i - k) →
      s (idx + (i - 1)) % 2 = 0 → fyAux s idx i l = swapL l 1 0 := by
  intro i
  induction i with
  | zero => intro idx l _ h1; omega
  | succ i ih =>
    intro idx l hi h1 hk hlast
    match i, ih with
    | 0, _ =>
      have h0 : s idx % 2 = 0 := by simpa using hlast
      rw [fyAux, h0]
      rfl
    | i + 1, ih =>
      have h0 : s idx % (i + 3) = i + 2 := by
        have := hk 0 (by omega)
        simpa using this
      rw [fyAux, h0, swapL_self l (i + 2) hi]
      refine ih (idx + 1) l (by omega) (by omega) ?_ ?_
      · intro k hk'
        have := hk (k + 1) (by omega)
        have e1 : idx + (k + 1) = idx + 1 + k := by omega
        have e2 : i + 1 + 1 + 1 - (k + 1) = i + 1 + 1 - k := by omega
        have e3 : i + 1 + 1 - (k + 1) = i + 1 - k := by omega
        rw [e1, e2, e3] at this
        exact this
      · have e : idx + 1 + (i + 1 - 1) = idx + (i + 1 + 1 - 1) := by omega
        rw [e]
        exact hlast

/-- The shuffle reads the stream only at positions `idx, …, idx + i - 1`. -/
theorem fyAux_congr (s₁ s₂ : Nat → Nat) :
    ∀ (i idx : Nat) (l : List Char),
      (∀ m, idx ≤ m → m < idx + i → s₁ m = s₂ m) → fyAux s₁ idx i l = fyAux s₂ idx i l := by
  intro i
  induction i with
  | zero => intro idx l _; rfl
  | succ i ih =>
    intro idx l h
    rw [fyAux, fyAux, h idx (by omega) (by omega)]
    exact ih (idx + 1) _ (fun m h1 h2 => h m (by omega) (by omega))

/-- The output of `generate_password` contains a character of each class,
whatever the requested length: the four mandatory characters are always in
the list that is shuffled. -/
theorem generate_password_contains_classes (length : Int) (s : Nat → Nat) :
    (∃ c ∈ (generate_password length s).data, c ∈ lowercase) ∧
    (∃ c ∈ (generate_password length s).data, c ∈ uppercase) ∧
    (∃ c ∈ (generate_password length s).data, c ∈ digits) ∧
    (∃ c ∈ (generate_password length s).data, c ∈ special_chars) := by
  have hmem : ∀ c ∈ mandatoryChars s, c ∈ (generate_password length s).data := fun c hc =>
    (generate_password_perm length s).mem_iff.mpr (List.mem_append_left _ hc)
  refine ⟨⟨choice lowercase (s 0), hmem _ ?_, choice_mem _ _ (by decide)⟩,
          ⟨choice uppercase (s 1), hmem _ ?_, choice_mem _ _ (by decide)⟩,
          ⟨choice digits (s 2), hmem _ ?_, choice_mem _ _ (by decide)⟩,
          ⟨choice special_chars (s 3), hmem _ ?_, choice_mem _ _ (by decide)⟩⟩ <;>
    simp [mandatoryChars]

/-- A random-source state whose shuffle draws are all identity exchanges:
the draw at position `n + k` is `n - 1 - k`, the current loop index. -/
def noopStream (n : Nat) : Nat → Nat :=
  fun m => if m < n then 0 else 2 * n - 1 - m

/-- Like `noopStream`, except that the final shuffle draw (position
`2n - 2`, modulus 2) is 0, so the last step exchanges positions 1 and 0. -/
def lastSwapStream (n : Nat) : Nat → Nat :=
  fun m => if m < n then 0 else if m = 2 * n - 2 then 0 else 2 * n - 1 - m

/-- Under a stream whose shuffle draws are all identity exchanges, the
shuffle inside `generate_password` leaves the combined list unchanged. -/
theorem generate_data_noop (length : Int) (s : Nat → Nat)
    (hs : ∀ k, k < 4 + (length - 4).toNat - 1 →
      s (4 + (length - 4).toNat + k) % (4 + (length - 4).toNat - k) =
        4 + (length - 4).toNat - 1 - k) :
    (generate_password length s).data = mandatoryChars s ++ fillChars length s := by
  rw [generate_password_data, shuffle, length_combined]
  apply fyAux_noop
  · rw [length_combined]; omega
  · intro k hk
    have e : 4 + (length - 4).toNat - 1 + 1 - k = 4 + (length - 4).toNat - k := by omega
    rw [e]
    exact hs k hk

/-- Under a stream whose shuffle draws are identity exchanges except the
last, which draws 0, the shuffle exchanges positions 1 and 0. -/
theorem generate_data_last_swap (length : Int) (s : Nat → Nat)
    (hs : ∀ k, k < 4 + (length - 4).toNat - 2 →
      s (4 + (length - 4).toNat + k) % (4 + (length - 4).toNat - k) =
        4 + (length - 4).toNat - 1 - k)
    (hlast : s (4 + (length - 4).toNat + (4 + (length - 4).toNat - 2)) % 2 = 0) :
    (generate_password length s).data = swapL (mandatoryChars s ++ fillChars length s) 1 0 := by
  rw [generate_password_data, shuffle, length_combined]
  apply fyAux_last_swap
  · rw [length_combined]; omega
  · omega
  · intro k hk
    have e : 4 + (length - 4).toNat - 1 + 1 - k = 4 + (length - 4).toNat - k := by omega
    rw [e]
    exact hs k (by omega)
  · have e : 4 + (length - 4).toNat - 1 - 1 = 4 + (length - 4).toNat - 2 := by omega
    rw [e]
    exact hlast

/-! ### The claims -/

/-- Claim C1: for every requested length L with L ≥ 4 and every
random-source state, the string returned by `generate_password` has length
exactly L. -/
theorem claim_C1_output_length (L : Int) (s : Nat → Nat) (h : 4 ≤ L) :
    ((generate_password L s).length : Int) = L := by
  rw [generate_password_length]
  omega

theorem claim_C1_witness :
    (4 : Int) ≤ 16 ∧ ((generate_password 16 (fun _ => 0)).length : Int) = 16 :=
  ⟨by norm_num, claim_C1_output_length 16 (fun _ => 0) (by norm_num)⟩

/-- Claim C2: for every requested length L ≥ 4 and every random-source
state, the output of `generate_password` contains at least one lowercase
letter, one uppercase letter, one digit and one special character. -/
theorem claim_C2_all_classes_present (L : Int) (s : Nat → Nat) (h : 4 ≤ L) :
    (∃ c ∈ (generate_password L s).data, c ∈ lowercase) ∧
    (∃ c ∈ (generate_password L s).data, c ∈ uppercase) ∧
    (∃ c ∈ (generate_password L s).data, c ∈ digits) ∧
    (∃ c ∈ (generate_password L s).data, c ∈ special_chars) :=
  generate_password_contains_classes L s

theorem claim_C2_witness :
    (4 : Int) ≤ 16 ∧
    ((∃ c ∈ (generate_password 16 (fun _ => 0)).data, c ∈ lowercase) ∧
     (∃ c ∈ (generate_password 16 (fun _ => 0)).data, c ∈ uppercase) ∧
     (∃ c ∈ (generate_password 16 (fun _ => 0)).data, c ∈ digits) ∧
     (∃ c ∈ (generate_password 16 (fun _ => 0)).data, c ∈ special_chars)) :=
  ⟨by norm_num, claim_C2_all_classes_present 16 (fun _ => 0) (by norm_num)⟩

/-- Claim C3, counterexample: the claim says `generate_password` fails
with an InvalidLength error for L < 4, but the source performs no length
validation at all: at L = 3 it returns the 4-character string "A0!a"
(under the all-zero random stream) instead of failing. -/
theorem claim_C3_counterexample :
    generate_password 3 (fun _ => 0) = "A0!a" ∧
    (generate_password 3 (fun _ => 0)).length = 4 := by
  constructor <;> decide

/-- Claim C3, amended: for every requested length L < 4 and every
random-source state, `generate_password` does not fail; the filler loop is
empty and it returns a 4-character string. -/
theorem claim_C3_amended_no_failure (L : Int) (s : Nat → Nat) (h : L < 4) :
    (generate_password L s).length = 4 := by
  rw [generate_password_length]
  omega

theorem claim_C3_amended_witness :
    (2 : Int) < 4 ∧ (generate_password 2 (fun _ => 1)).length = 4 :=
  ⟨by norm_num, claim_C3_amended_no_failure 2 (fun _ => 1) (by norm_num)⟩

/-- Claim C4: for L ≥ 4, the output of `generate_password` is exactly a
permutation of one character from each of the four classes followed by
L − 4 characters drawn from the union alphabet. -/
theorem claim_C4_permutation_decomposition (L : Int) (s : Nat → Nat) (h : 4 ≤ L) :
    ∃ (a b c d : Char) (fill : List Char),
      a ∈ lowercase ∧ b ∈ uppercase ∧ c ∈ digits ∧ d ∈ special_chars ∧
      (fill.length : Int) = L - 4 ∧ (∀ x ∈ fill, x ∈ all_chars) ∧
      (generate_password L s).data.Perm ([a, b, c, d] ++ fill) := by
  refine ⟨choice lowercase (s 0), choice uppercase (s 1), choice digits (s 2),
    choice special_chars (s 3), fillChars L s,
    choice_mem _ _ (by decide), choice_mem _ _ (by decide), choice_mem _ _ (by decide),
    choice_mem _ _ (by decide), ?_, mem_fillChars L s, ?_⟩
  · rw [length_fillChars]; omega
  · exact generate_password_perm L s

theorem claim_C4_witness :
    (4 : Int) ≤ 5 ∧
    (∃ (a b c d : Char) (fill : List Char),
      a ∈ lowercase ∧ b ∈ uppercase ∧ c ∈ digits ∧ d ∈ special_chars ∧
      (fill.length : Int) = 5 - 4 ∧ (∀ x ∈ fill, x ∈ all_chars) ∧
      (generate_password 5 (fun _ => 2)).data.Perm ([a, b, c, d] ++ fill)) :=
  ⟨by norm_num, claim_C4_permutation_decomposition 5 (fun _ => 2) (by norm_num)⟩

/-- Claim C5: `generate_password` is a pure function of the requested
length and the random source's state: its output is determined by L and
the stream draws it consumes (the first `2·max(L,4) − 1` of them), and the
only state it touches is that consumed prefix. -/
theorem claim_C5_pure_function (L : Int) (s₁ s₂ : Nat → Nat)
    (h : ∀ m, m < 2 * (4 + (L - 4).toNat) - 1 → s₁ m = s₂ m) :
    generate_password L s₁ = generate_password L s₂ := by
  have hm : mandatoryChars s₁ = mandatoryChars s₂ := by
    simp only [mandatoryChars]
    rw [h 0 (by omega), h 1 (by omega), h 2 (by omega), h 3 (by omega)]
  have hf : fillChars L s₁ = fillChars L s₂ := by
    simp only [fillChars]
    apply List.map_congr_left
    intro k hk
    rw [List.mem_range] at hk
    rw [h (4 + k) (by omega)]
  simp only [generate_password]
  rw [hm, hf]
  congr 1
  simp only [shuffle]
  apply fyAux_congr
  intro m h1 h2
  refine h m ?_
  have hl := length_combined L s₂
  omega

theorem claim_C5_witness :
    generate_password 4 (fun _ => 0) = generate_password 4 (fun m => if m < 7 then 0 else 99) :=
  claim_C5_pure_function 4 (fun _ => 0) (fun m => if m < 7 then 0 else 99)
    (fun m hm => by
      have h7 : m < 7 := by simpa using hm
      simp [h7])

/-- Claim C6: the four character classes are pairwise disjoint and the
fixed 70-character alphabet `all_chars` is exactly their concatenation, so
the classes partition it. -/
theorem claim_C6_classes_partition :
    lowercase.Disjoint uppercase ∧ lowercase.Disjoint digits ∧
    lowercase.Disjoint special_chars ∧ uppercase.Disjoint digits ∧
    uppercase.Disjoint special_chars ∧ digits.Disjoint special_chars ∧
    all_chars = lowercase ++ uppercase ++ digits ++ special_chars := by
  have d1 : ∀ x ∈ lowercase, x ∉ uppercase := by decide
  have d2 : ∀ x ∈ lowercase, x ∉ digits := by decide
  have d3 : ∀ x ∈ lowercase, x ∉ special_chars := by decide
  have d4 : ∀ x ∈ uppercase, x ∉ digits := by decide
  have d5 : ∀ x ∈ uppercase, x ∉ special_chars := by decide
  have d6 : ∀ x ∈ digits, x ∉ special_chars := by decide
  exact ⟨fun a ha => d1 a ha, fun a ha => d2 a ha, fun a ha => d3 a ha,
         fun a ha => d4 a ha, fun a ha => d5 a ha, fun a ha => d6 a ha, rfl⟩

/-- Claim C7: `generate_password` is total: for every integer length and
every random-source state it returns a string, the filler loop running
`max(L − 4, 0)` iterations, so the output has `4 + max(L − 4, 0)`
characters. -/
theorem claim_C7_total_fill_count (L : Int) (s : Nat → Nat) :
    ((fillChars L s).length : Int) = max (L - 4) 0 ∧
    (generate_password L s).length = 4 + (L - 4).toNat := by
  refine ⟨?_, generate_password_length L s⟩
  rw [length_fillChars]
  omega

/-- Claim C8: for every fixed length L ≥ 4 the class of the first output
character is not fixed: there are two random-source states under which
`generate_password L` starts with characters of different classes (here a
lowercase letter versus an uppercase letter), so the output is not
class-grouped. -/
theorem claim_C8_first_class_not_fixed (L : Int) (h : 4 ≤ L) :
    ∃ s₁ s₂ : Nat → Nat,
      (generate_password L s₁).data.getD 0 ' ' ∈ lowercase ∧
      (generate_password L s₁).data.getD 0 ' ' ∉ uppercase ∧
      (generate_password L s₂).data.getD 0 ' ' ∈ uppercase ∧
      (generate_password L s₂).data.getD 0 ' ' ∉ lowercase := by
  have hn : 4 ≤ 4 + (L - 4).toNat := by omega
  have hs₁ : ∀ k, k < 4 + (L - 4).toNat - 1 →
      noopStream (4 + (L - 4).toNat) (4 + (L - 4).toNat + k) % (4 + (L - 4).toNat - k) =
        4 + (L - 4).toNat - 1 - k := by
    intro k hk
    simp only [noopStream]
    rw [if_neg (by omega)]
    have e : 2 * (4 + (L - 4).toNat) - 1 - (4 + (L - 4).toNat + k) =
        4 + (L - 4).toNat - 1 - k := by omega
    rw [e]
    exact Nat.mod_eq_of_lt (by omega)
  have hs₂ : ∀ k, k < 4 + (L - 4).toNat - 2 →
      lastSwapStream (4 + (L - 4).toNat) (4 + (L - 4).toNat + k) % (4 + (L - 4).toNat - k) =
        4 + (L - 4).toNat - 1 - k := by
    intro k hk
    simp only [lastSwapStream]
    rw [if_neg (by omega), if_neg (by omega)]
    have e : 2 * (4 + (L - 4).toNat) - 1 - (4 + (L - 4).toNat + k) =
        4 + (L - 4).toNat - 1 - k := by omega
    rw [e]
    exact Nat.mod_eq_of_lt (by omega)
  have hlast : lastSwapStream (4 + (L - 4).toNat)
      (4 + (L - 4).toNat + (4 + (L - 4).toNat - 2)) % 2 = 0 := by
    simp only [lastSwapStream]
    rw [if_neg (by omega), if_pos (by omega)]
  have h1 : (generate_password L (noopStream (4 + (L - 4).toNat))).data.getD 0 ' ' = 'a' := by
    rw [generate_data_noop L _ hs₁]
    simp only [mandatoryChars, List.cons_append, List.getD_cons_zero]
    have h0 : noopStream (4 + (L - 4).toNat) 0 = 0 := by
      simp only [noopStream]
      rw [if_pos (by omega)]
    rw [h0]
    decide
  have h2 : (generate_password L (lastSwapStream (4 + (L - 4).toNat))).data.getD 0 ' ' = 'A' := by
    rw [generate_data_last_swap L _ hs₂ hlast]
    simp only [mandatoryChars, List.cons_append]
    rw [swapL_one_zero, List.getD_cons_zero]
    have h0 : lastSwapStream (4 + (L - 4).toNat) 1 = 0 := by
      simp only [lastSwapStream]
      rw [if_pos (by omega)]
    rw [h0]
    decide
  refine ⟨noopStream (4 + (L - 4).toNat), lastSwapStream (4 + (L - 4).toNat), ?_, ?_, ?_, ?_⟩
  · rw [h1]; decide
  · rw [h1]; decide
  · rw [h2]; decide
  · rw [h2]; decide

theorem claim_C8_witness :
    (4 : Int) ≤ 16 ∧
    (∃ s₁ s₂ : Nat → Nat,
      (generate_password 16 s₁).data.getD 0 ' ' ∈ lowercase ∧
      (generate_password 16 s₁).data.getD 0 ' ' ∉ uppercase ∧
      (generate_password 16 s₂).data.getD 0 ' ' ∈ uppercase ∧
      (generate_password 16 s₂).data.getD 0 ' ' ∉ lowercase) :=
  ⟨by norm_num, claim_C8_first_class_not_fixed 16 (by norm_num)⟩

/-- Claim C9: for every requested length L < 4 (including 0 and negative
lengths) and every random-source state, `generate_password` raises no
error and returns a string of exactly 4 characters with one character
from each class. -/
theorem claim_C9_short_lengths (L : Int) (s : Nat → Nat) (h : L < 4) :
    (generate_password L s).length = 4 ∧
    (∃ c ∈ (generate_password L s).data, c ∈ lowercase) ∧
    (∃ c ∈ (generate_password L s).data, c ∈ uppercase) ∧
    (∃ c ∈ (generate_password L s).data, c ∈ digits) ∧
    (∃ c ∈ (generate_password L s).data, c ∈ special_chars) := by
  refine ⟨?_, generate_password_contains_classes L s⟩
  rw [generate_password_length]
  omega

theorem claim_C9_witness :
    (-3 : Int) < 4 ∧
    ((generate_password (-3) (fun _ => 5)).length = 4 ∧
     (∃ c ∈ (generate_password (-3) (fun _ => 5)).data, c ∈ lowercase) ∧
     (∃ c ∈ (generate_password (-3) (fun _ => 5)).data, c ∈ uppercase) ∧
     (∃ c ∈ (generate_password (-3) (fun _ => 5)).data, c ∈ digits) ∧
     (∃ c ∈ (generate_password (-3) (fun _ => 5)).data, c ∈ special_chars)) :=
  ⟨by norm_num, claim_C9_short_lengths (-3) (fun _ => 5) (by norm_num)⟩

/-- Claim C10: every character of the output of `generate_password` is a
member of the 70-character union alphabet, for every integer length and
every random-source state. -/
theorem claim_C10_alphabet_closure (L : Int) (s : Nat → Nat) :
    all_chars.length = 70 ∧ ∀ c ∈ (generate_password L s).data, c ∈ all_chars := by
  refine ⟨by decide, ?_⟩
  intro c hc
  rcases List.mem_append.mp ((generate_password_perm L s).mem_iff.mp hc) with h | h
  · exact mem_mandatoryChars s c h
  · exact mem_fillChars L s c h

theorem claim_C10_witness :
    all_chars.length = 70 ∧ 'A' ∈ all_chars :=
  ⟨(claim_C10_alphabet_closure 3 (fun _ => 0)).1,
   (claim_C10_alphabet_closure 3 (fun _ => 0)).2 'A' (by decide)⟩

end App
